import Mathlib

/-!
Verification of the interview-cards flashcard application core
(`src/src/App.jsx`): record normalization, company-tag splitting, the
filter/sort/shuffle view pipeline, single-card traversal, and the
upload error policy.

Modelling conventions:
* JavaScript strings are Lean `String`s; the relevant JS string
  primitives (`trim`, `toLowerCase`, `includes`, `split`, regex
  whitespace collapse) are modelled on `List Char` for the ASCII
  range that the application data uses.
* A JS input row (object) is an association list in iteration order;
  scalar cell values are `Option String` (`none` models `null` or
  `undefined`, which the code coerces to the empty string).
* `Math.random`-driven index choices are an oracle
  `(i : Nat) → Fin (i + 1)`, matching `Math.floor(Math.random() * (i + 1))`.
* `Array.prototype.sort` (stable per ES2019) with the `localeCompare`
  comparator is modelled as a stable insertion sort over an abstract
  boolean comparison `le` on `String`.
-/

namespace InterviewCards

open scoped List

/-- Model of the JS regex class `\s` restricted to ASCII: space, tab,
line feed, vertical tab, form feed, carriage return. -/
def jsIsWs (c : Char) : Bool :=
  c == ' ' || c == '\t' || c == '\n' || c == '\x0b' || c == '\x0c' || c == '\r'

/-- Drop leading and trailing whitespace from a character list
(model of `String.prototype.trim`). -/
def listTrim (l : List Char) : List Char :=
  ((l.dropWhile jsIsWs).reverse.dropWhile jsIsWs).reverse

/-- Model of `String.prototype.trim`. -/
def jsTrim (s : String) : String :=
  String.mk (listTrim s.data)

/-- Model of `String.prototype.toLowerCase` (ASCII range). -/
def jsToLower (s : String) : String :=
  String.mk (s.data.map Char.toLower)

/-- Does `sub` occur as a contiguous sublist of `l`?  Helper for
`String.prototype.includes`. -/
def listContainsSub (sub : List Char) : List Char → Bool
  | [] => sub.isPrefixOf ([] : List Char)
  | c :: t => sub.isPrefixOf (c :: t) || listContainsSub sub t

/-- Model of `s.includes(sub)` for JS strings. -/
def jsIncludes (s sub : String) : Bool :=
  listContainsSub sub.data s.data

/-- The canonical four-field schema produced by the Record Normalizer.
The JS field `Type` is called `Typ` here because `Type` is reserved in
Lean; everything else keeps the source name. -/
structure Record where
  Company : String
  Typ : String
  Question : String
  Answer : String
deriving DecidableEq

/-- An input row: arbitrary string keys paired with scalar values, in
JS object iteration order (`Object.entries`). -/
abbrev Row := List (String × Option String)

/-- Model of `v == null ? '' : String(v)` from `normalizeRecords`. -/
def coerceVal : Option String → String
  | none => ""
  | some s => s

/-- The key classifier `mapKey` from `normalizeRecords`
(`src/src/App.jsx` lines 19-27), transcribed clause for clause:
trim, lowercase, then the five-way substring/equality test, falling
back to the original key when nothing matches. -/
def mapKey (k : String) : String :=
  let s := jsToLower (jsTrim k)
  if jsIncludes s "company" then "Company"
  else if jsIncludes s "question" then "Question"
  else if jsIncludes s "answer" then "Answer"
  else if jsIncludes s "behav" then "Type"
  else if jsIncludes s "techn" || s == "type" then "Type"
  else k

/-- Model of `if (kk in out) out[kk] = ...`: writing a value into the
canonical record under a mapped key name.  The JS `in` test is
modelled as membership in the four canonical field names (the four own
properties of the literal `out`). -/
def setField (out : Record) (kk : String) (v : Option String) : Record :=
  if kk == "Company" then { out with Company := coerceVal v }
  else if kk == "Type" then { out with Typ := coerceVal v }
  else if kk == "Question" then { out with Question := coerceVal v }
  else if kk == "Answer" then { out with Answer := coerceVal v }
  else out

/-- The literal `{ Company: '', Type: '', Question: '', Answer: '' }`. -/
def emptyRecord : Record :=
  ⟨"", "", "", ""⟩

/-- One row of the `.map` inside `normalizeRecords`: fold the row's
entries over the empty record, later entries overwriting earlier
ones. -/
def normalizeRow (r : Row) : Record :=
  r.foldl (fun out kv => setField out (mapKey kv.1) kv.2) emptyRecord

/-- The retention test `.filter((r) => r.Question && r.Answer)`: a JS
string is truthy exactly when it is non-empty. -/
def keepRecord (r : Record) : Bool :=
  !(r.Question == "") && !(r.Answer == "")

/-- The Record Normalizer `normalizeRecords`
(`src/src/App.jsx` lines 18-38). -/
def normalizeRecords (rows : List Row) : List Record :=
  (rows.map normalizeRow).filter keepRecord

/-- The delimiter class `[;,\n]` of `splitCompanies`. -/
def isDelim (c : Char) : Bool :=
  c == ';' || c == ',' || c == '\n'

/-- Model of `String.prototype.split` on the single-character class
`[;,\n]`: empty pieces are kept (they are filtered later). -/
def splitOnDelims : List Char → List (List Char)
  | [] => [[]]
  | c :: rest =>
    if isDelim c then [] :: splitOnDelims rest
    else
      match splitOnDelims rest with
      | [] => [[c]]
      | p :: ps => (c :: p) :: ps

/-- Helper for `replace(/\s+/g, ' ')`: the flag records whether the
previous character was whitespace (in which case further whitespace is
absorbed into the single space already emitted). -/
def collapseWsAux : Bool → List Char → List Char
  | _, [] => []
  | prevWs, c :: rest =>
    if jsIsWs c then
      if prevWs then collapseWsAux true rest
      else ' ' :: collapseWsAux true rest
    else c :: collapseWsAux false rest

/-- Model of `s.replace(/\s+/g, ' ')`: collapse every run of
whitespace to a single space. -/
def collapseWs (l : List Char) : List Char :=
  collapseWsAux false l

/-- The company-tag splitter `splitCompanies`
(`src/src/App.jsx` lines 41-47): split on `[;,\n]`, collapse runs of
whitespace, trim, and drop empty pieces. -/
def splitCompanies (value : String) : List String :=
  (((splitOnDelims value.data).map (fun p => listTrim (collapseWs p))).filter
    (fun p => !p.isEmpty)).map String.mk

/-- The filter-time type normalization from the `filtered` memo
(`src/src/App.jsx` lines 87-88): lowercase, then "behav" wins, then
"tech", else the lowercased raw value (the JS `t || ''` is the
identity on strings since an empty `t` yields `''`). -/
def normalizedType (d : Record) : String :=
  let t := jsToLower d.Typ
  if jsIncludes t "behav" then "behavioral"
  else if jsIncludes t "tech" then "technical"
  else t

/-- The filter predicate of the `filtered` memo
(`src/src/App.jsx` lines 84-91). -/
def recordPasses (company typ : String) (d : Record) : Bool :=
  (company == "all" || (splitCompanies d.Company).contains company)
    && (typ == "all" || normalizedType d == typ)

/-- The filter stage of the view pipeline. -/
def filterStage (company typ : String) (allData : List Record) : List Record :=
  allData.filter (recordPasses company typ)

/-- The sort stage of the view pipeline (`src/src/App.jsx` lines
93-98).  `le` abstracts the locale-aware comparator
`(a, b) => String(a[k] || '').localeCompare(String(b[k] || '')) <= 0`;
`[...list].sort` is a stable sort on a fresh copy, modelled by a
stable insertion sort.  `String(a[k] || '')` is the raw field itself,
since the fields are strings and `'' || ''` is `''`. -/
def sortStage (le : String → String → Bool) (sortBy : String)
    (list : List Record) : List Record :=
  if sortBy == "none" then list
  else if sortBy == "company" then
    list.insertionSort (fun a b => le a.Company b.Company = true)
  else if sortBy == "type" then
    list.insertionSort (fun a b => le a.Typ b.Typ = true)
  else if sortBy == "question" then
    list.insertionSort (fun a b => le a.Question b.Question = true)
  else list

/-- Swap the entries at positions `i` and `j`
(model of `[a[i], a[j]] = [a[j], a[i]]`). -/
def swapIdx {α : Type} (a : List α) (i j : Nat) : List α :=
  match a[i]?, a[j]? with
  | some x, some y => (a.set i y).set j x
  | _, _ => a

/-- The Fisher-Yates loop of `shuffleArray` (`src/src/App.jsx` lines
11-14): processes index `k` down to index `1`, at index `i` swapping
positions `i` and `rand i`. -/
def fyLoop {α : Type} (rand : (i : Nat) → Fin (i + 1)) : Nat → List α → List α
  | 0, a => a
  | i + 1, a => fyLoop rand i (swapIdx a (i + 1) (rand (i + 1)).val)

/-- The shuffle `shuffleArray` (`src/src/App.jsx` lines 9-16), with
the random source abstracted: `rand i` models
`Math.floor(Math.random() * (i + 1))`, a value in `[0, i]`. -/
def shuffleArray {α : Type} (rand : (i : Nat) → Fin (i + 1)) (arr : List α) :
    List α :=
  fyLoop rand (arr.length - 1) arr

/-- The finite space of random-index choices actually consumed when
shuffling a list of length `n`: one choice in `[0, i]` for every
index `i < n`. -/
def FYChoices (n : Nat) : Type :=
  (i : Fin n) → Fin (i.val + 1)

instance : DecidableEq (FYChoices n) := by
  unfold FYChoices
  infer_instance

instance : Fintype (FYChoices n) := by
  unfold FYChoices
  infer_instance

/-- Turn a finite choice vector into a random oracle for
`shuffleArray` (the values at indices `≥ n` are never consumed when
the list has length `n`). -/
def toRand {n : Nat} (c : FYChoices n) : (i : Nat) → Fin (i + 1) :=
  fun i => if h : i < n then c ⟨i, h⟩ else ⟨0, Nat.succ_pos i⟩

/-- The full view pipeline of the `filtered` memo
(`src/src/App.jsx` lines 83-102): filter, then sort (when `sortBy`
is not `"none"`), then shuffle (when `randomized`). -/
def viewPipeline (le : String → String → Bool)
    (rand : (i : Nat) → Fin (i + 1)) (company typ sortBy : String)
    (randomized : Bool) (allData : List Record) : List Record :=
  let l1 := filterStage company typ allData
  let l2 := sortStage le sortBy l1
  if randomized then shuffleArray rand l2 else l2

/-- The single-card traversal state: current index and whether the
answer is revealed. -/
structure NavState where
  index : Nat
  revealed : Bool
deriving DecidableEq

/-- The `nextCard` handler (`src/src/App.jsx` lines 117-121): a no-op
on an empty list, otherwise advance modulo the list length and hide
the answer. -/
def nextCard (n : Nat) (s : NavState) : NavState :=
  if n == 0 then s else ⟨(s.index + 1) % n, false⟩

/-- The `prevCard` handler (`src/src/App.jsx` lines 112-116): a no-op
on an empty list, otherwise `(i - 1 + n) % n` (computed in `Int`, as
JS does) and hide the answer. -/
def prevCard (n : Nat) (s : NavState) : NavState :=
  if n == 0 then s
  else ⟨((((s.index : Int) - 1 + (n : Int)) % (n : Int)).toNat), false⟩

/-- The cursor-reset effect (`src/src/App.jsx` lines 105-108): when
the filtered list identity or the view mode changes, the index returns
to `0` and the answer is hidden. -/
def resetCursor : NavState :=
  ⟨0, false⟩

/-- The two accepted replacement-file formats plus everything else. -/
inductive UploadFormat
  | structured
  | tabular
  | other
deriving DecidableEq

/-- A user-supplied replacement file: its recognized format and the
rows its parse produced (`none` models a parse failure). -/
structure UploadFile where
  format : UploadFormat
  rows : Option (List Row)

/-- Modelled from the spec: the upload handler itself is not under
`src/` (only its `error` state variable appears, `src/src/App.jsx`
line 433).  Per spec sections 6 and 7, a file in one of the two
accepted formats whose parse succeeds replaces the working set
wholesale through the Normalizer; any other file type or a parse
failure leaves the working set untouched and surfaces a single
human-readable message.  Returns the new working set and the error
message (empty on success). -/
def handleUpload (current : List Record) (f : UploadFile) :
    List Record × String :=
  match f.format, f.rows with
  | UploadFormat.structured, some rows => (normalizeRecords rows, "")
  | UploadFormat.tabular, some rows => (normalizeRecords rows, "")
  | _, _ =>
    (current,
      "Could not read that file. Please upload a CSV or JSON file with Company, Type, Question and Answer fields.")

/-- The four canonical fields, used by the claim-side (spec-worded)
description of the key classifier. -/
inductive CanonField
  | company
  | question
  | answer
  | qtype
deriving DecidableEq

/-- The canonical name the source uses for each field. -/
def fieldName : CanonField → String
  | CanonField.company => "Company"
  | CanonField.question => "Question"
  | CanonField.answer => "Answer"
  | CanonField.qtype => "Type"

/-- Read a canonical field off a record. -/
def getField : CanonField → Record → String
  | CanonField.company, r => r.Company
  | CanonField.question, r => r.Question
  | CanonField.answer, r => r.Answer
  | CanonField.qtype, r => r.Typ

/-- Claim-side classifier, written from the words of claim C2 / spec
section 4.1: trim and lowercase, then classify by substring
containment in the stated precedence order, yielding `none` for an
unmapped key. -/
def claimClassify (k : String) : Option CanonField :=
  let s := jsToLower (jsTrim k)
  if jsIncludes s "company" then some CanonField.company
  else if jsIncludes s "question" then some CanonField.question
  else if jsIncludes s "answer" then some CanonField.answer
  else if jsIncludes s "behav" then some CanonField.qtype
  else if jsIncludes s "techn" || s == "type" then some CanonField.qtype
  else none

/-- Claim-side type normalization, written from the words of claim C5:
lowercase the `Type` field; containing "behav" gives `behavioral`,
else containing "tech" gives `technical`, else the lowercased raw
value. -/
def claimNormalizedType (d : Record) : String :=
  let t := jsToLower d.Typ
  if jsIncludes t "behav" then "behavioral"
  else if jsIncludes t "tech" then "technical"
  else t

/-- Claim-side filter predicate, written from the words of claim C5. -/
def claimKeeps (company typ : String) (d : Record) : Prop :=
  (company = "all" ∨ company ∈ splitCompanies d.Company)
    ∧ (typ = "all" ∨ claimNormalizedType d = typ)

instance : DecidablePred (claimKeeps company typ) := by
  intro d
  unfold claimKeeps
  infer_instance

/-! ## Helper lemmas -/

/-- The claim-side type normalization and the source's filter-time
normalization are the same function. -/
theorem claimNormalizedType_eq (d : Record) :
    claimNormalizedType d = normalizedType d := rfl

/-- The source filter predicate holds exactly when the claim-side
keep condition holds. -/
theorem recordPasses_iff (company typ : String) (d : Record) :
    recordPasses company typ d = true ↔ claimKeeps company typ d := by
  unfold recordPasses claimKeeps
  simp [Bool.and_eq_true, Bool.or_eq_true, beq_iff_eq, List.elem_iff,
    claimNormalizedType_eq]

/-- The source key classifier agrees with the claim-side classifier:
it returns the canonical field name when a rule matches and the
original key otherwise. -/
theorem mapKey_eq_classify (k : String) :
    mapKey k = (claimClassify k).elim k fieldName := by
  simp only [mapKey, claimClassify]
  split_ifs <;> rfl

/-- A key unmapped by every rule writes nothing: its original name is
none of the four canonical field names (each of those is itself
classified), so `setField` leaves the record unchanged. -/
theorem setField_unmapped (out : Record) (k : String) (v : Option String)
    (h : claimClassify k = none) : setField out (mapKey k) v = out := by
  have hm : mapKey k = k := by rw [mapKey_eq_classify, h]; rfl
  have h1 : k ≠ "Company" := by rintro rfl; revert h; decide
  have h2 : k ≠ "Type" := by rintro rfl; revert h; decide
  have h3 : k ≠ "Question" := by rintro rfl; revert h; decide
  have h4 : k ≠ "Answer" := by rintro rfl; revert h; decide
  rw [hm]
  unfold setField
  simp [h1, h2, h3, h4]

/-- Writing a canonical field and reading it back yields the coerced
value. -/
theorem getField_setField_same (f : CanonField) (out : Record)
    (v : Option String) :
    getField f (setField out (fieldName f) v) = coerceVal v := by
  cases f <;> rfl

/-- Writing one canonical field leaves the other fields unchanged. -/
theorem getField_setField_ne (fw fr : CanonField) (h : fr ≠ fw)
    (out : Record) (v : Option String) :
    getField fr (setField out (fieldName fw) v) = getField fr out := by
  cases fw <;> cases fr <;> first | rfl | exact absurd rfl h

/-- Appending one entry to a row folds as one `setField` step on the
already-normalized prefix (hence the later key wins). -/
theorem normalizeRow_append (r : Row) (k : String) (v : Option String) :
    normalizeRow (r ++ [(k, v)]) = setField (normalizeRow r) (mapKey k) v := by
  unfold normalizeRow
  rw [List.foldl_append]
  rfl

/-- Fields of the empty record are empty. -/
theorem getField_emptyRecord (f : CanonField) : getField f emptyRecord = "" := by
  cases f <;> rfl

/-- A canonical field not targeted by any key of the row keeps
whatever the accumulator held. -/
theorem getField_foldl_unmapped (f : CanonField) :
    ∀ (row : Row) (out : Record),
      (∀ kv ∈ row, claimClassify kv.1 ≠ some f) →
      getField f (row.foldl (fun o kv => setField o (mapKey kv.1) kv.2) out)
        = getField f out := by
  intro row
  induction row with
  | nil => intro out _; rfl
  | cons kv t ih =>
    intro out h
    have hkv : claimClassify kv.1 ≠ some f := h kv (List.mem_cons_self _ _)
    have ht : ∀ kv' ∈ t, claimClassify kv'.1 ≠ some f :=
      fun kv' h' => h kv' (List.mem_cons_of_mem _ h')
    show getField f (t.foldl _ (setField out (mapKey kv.1) kv.2)) = getField f out
    rw [ih _ ht]
    rcases hc : claimClassify kv.1 with _ | f'
    · rw [setField_unmapped out kv.1 kv.2 hc]
    · have hne : f ≠ f' := fun he => hkv (by rw [hc, he])
      rw [mapKey_eq_classify, hc]
      exact getField_setField_ne f' f hne out kv.2

/-- Swapping two positions preserves length. -/
theorem length_swapIdx {α : Type} (a : List α) (i j : Nat) :
    (swapIdx a i j).length = a.length := by
  unfold swapIdx
  split <;> simp

/-- The Fisher-Yates loop preserves length. -/
theorem length_fyLoop {α : Type} (rand : (i : Nat) → Fin (i + 1)) :
    ∀ (k : Nat) (a : List α), (fyLoop rand k a).length = a.length := by
  intro k
  induction k with
  | zero => intro a; rfl
  | succ k ih =>
    intro a
    calc (fyLoop rand (k + 1) a).length
        = (fyLoop rand k (swapIdx a (k + 1) (rand (k + 1)).val)).length := rfl
      _ = (swapIdx a (k + 1) (rand (k + 1)).val).length := ih _
      _ = a.length := length_swapIdx a _ _

/-- A swap entirely inside the prefix commutes with appending a last
element. -/
theorem swapIdx_append_left {α : Type} (ys : List α) (e : α) (i j : Nat)
    (hi : i < ys.length) (hj : j < ys.length) :
    swapIdx (ys ++ [e]) i j = swapIdx ys i j ++ [e] := by
  unfold swapIdx
  rw [List.getElem?_append_left hi, List.getElem?_append_left hj,
    List.getElem?_eq_getElem hi, List.getElem?_eq_getElem hj]
  show ((ys ++ [e]).set i ys[j]).set j ys[i]
      = (ys.set i ys[j]).set j ys[i] ++ [e]
  rw [List.set_append, if_pos hi, List.set_append,
    if_pos (by simpa using hj)]

/-- The Fisher-Yates loop, run for indices at most `k`, never touches
a last element beyond position `k`. -/
theorem fyLoop_append_last {α : Type} (rand : (i : Nat) → Fin (i + 1)) :
    ∀ (k : Nat) (ys : List α) (e : α), k < ys.length →
      fyLoop rand k (ys ++ [e]) = fyLoop rand k ys ++ [e] := by
  intro k
  induction k with
  | zero => intro ys e _; rfl
  | succ k ih =>
    intro ys e hk
    have hj : (rand (k + 1)).val < ys.length :=
      Nat.lt_of_le_of_lt (Nat.lt_succ_iff.mp (rand (k + 1)).isLt) hk
    calc fyLoop rand (k + 1) (ys ++ [e])
        = fyLoop rand k (swapIdx (ys ++ [e]) (k + 1) (rand (k + 1)).val) := rfl
      _ = fyLoop rand k (swapIdx ys (k + 1) (rand (k + 1)).val ++ [e]) := by
          rw [swapIdx_append_left ys e (k + 1) (rand (k + 1)).val hk hj]
      _ = fyLoop rand k (swapIdx ys (k + 1) (rand (k + 1)).val) ++ [e] := by
          apply ih
          rw [length_swapIdx]
          exact Nat.lt_of_succ_lt hk
      _ = fyLoop rand (k + 1) ys ++ [e] := rfl

/-- Shape of the first Fisher-Yates swap: swapping the last position
with position `j` replaces position `j` by the old last element and
moves the old `j`-th element to the end. -/
theorem swapIdx_last {α : Type} (ys : List α) (e : α) (j : Nat)
    (hj : j ≤ ys.length) :
    swapIdx (ys ++ [e]) ys.length j
      = ys.set j e ++ [(ys ++ [e]).getD j e] := by
  rcases Nat.lt_or_ge j ys.length with hlt | hge
  · have h1 : (ys ++ [e])[ys.length]? = some e := List.getElem?_concat_length ys e
    have h2 : (ys ++ [e])[j]? = some ys[j] := by
      rw [List.getElem?_append_left hlt, List.getElem?_eq_getElem hlt]
    have hgd : (ys ++ [e]).getD j e = ys[j] := by
      rw [List.getD_eq_getElem?_getD, h2]
      rfl
    unfold swapIdx
    rw [h1, h2]
    show ((ys ++ [e]).set ys.length ys[j]).set j e = ys.set j e ++ [(ys ++ [e]).getD j e]
    rw [hgd, List.set_append, if_neg (Nat.lt_irrefl ys.length), Nat.sub_self]
    show (ys ++ [ys[j]]).set j e = ys.set j e ++ [ys[j]]
    rw [List.set_append, if_pos hlt]
  · have hj' : j = ys.length := Nat.le_antisymm hj hge
    subst hj'
    have h1 : (ys ++ [e])[ys.length]? = some e := List.getElem?_concat_length ys e
    have hgd : (ys ++ [e]).getD ys.length e = e := by
      rw [List.getD_eq_getElem?_getD, h1]
      rfl
    unfold swapIdx
    rw [h1]
    show ((ys ++ [e]).set ys.length e).set ys.length e
        = ys.set ys.length e ++ [(ys ++ [e]).getD ys.length e]
    rw [hgd, List.set_eq_of_length_le (Nat.le_refl ys.length),
      List.set_append, if_neg (Nat.lt_irrefl ys.length), Nat.sub_self,
      List.set_append, if_neg (Nat.lt_irrefl ys.length), Nat.sub_self]
    rfl

/-- Peeling one round off the shuffle: the shuffle of `ys ++ [e]`
first decides the final position's occupant (the element at the random
index `j`, with the old last element moved down to position `j`) and
then shuffles the remaining prefix. -/
theorem shuffleArray_peel {α : Type} (rand : (i : Nat) → Fin (i + 1))
    (ys : List α) (e : α) :
    shuffleArray rand (ys ++ [e])
      = shuffleArray rand (ys.set (rand ys.length).val e)
          ++ [(ys ++ [e]).getD (rand ys.length).val e] := by
  cases ys with
  | nil =>
    have h0 : (rand 0).val = 0 := Nat.lt_one_iff.mp (rand 0).isLt
    simp [shuffleArray, fyLoop, h0]
  | cons y t =>
    have hL : ((y :: t) ++ [e]).length - 1 = t.length + 1 := by simp
    show fyLoop rand (((y :: t) ++ [e]).length - 1) ((y :: t) ++ [e]) = _
    rw [hL]
    have hj : (rand (t.length + 1)).val ≤ (y :: t).length := by
      have h := (rand (t.length + 1)).isLt
      simp only [List.length_cons]
      omega
    calc fyLoop rand (t.length + 1) ((y :: t) ++ [e])
        = fyLoop rand t.length
            (swapIdx ((y :: t) ++ [e]) (t.length + 1) (rand (t.length + 1)).val) := rfl
      _ = fyLoop rand t.length
            ((y :: t).set (rand (t.length + 1)).val e
              ++ [((y :: t) ++ [e]).getD (rand (t.length + 1)).val e]) := by
          rw [show t.length + 1 = (y :: t).length from rfl]
          rw [swapIdx_last (y :: t) e (rand (y :: t).length).val hj]
      _ = fyLoop rand t.length ((y :: t).set (rand (t.length + 1)).val e)
            ++ [((y :: t) ++ [e]).getD (rand (t.length + 1)).val e] := by
          apply fyLoop_append_last
          simp
      _ = shuffleArray rand ((y :: t).set (rand (t.length + 1)).val e)
            ++ [((y :: t) ++ [e]).getD (rand (t.length + 1)).val e] := by
          rw [shuffleArray, show ((y :: t).set (rand (t.length + 1)).val e).length - 1
              = t.length from by simp]

/-- The Fisher-Yates loop only consults the random source at the
indices `1` to `k` it visits. -/
theorem fyLoop_congr {α : Type} (r1 r2 : (i : Nat) → Fin (i + 1)) :
    ∀ (k : Nat) (a : List α), (∀ i, 1 ≤ i → i ≤ k → r1 i = r2 i) →
      fyLoop r1 k a = fyLoop r2 k a := by
  intro k
  induction k with
  | zero => intro a _; rfl
  | succ k ih =>
    intro a h
    have h1 : r1 (k + 1) = r2 (k + 1) :=
      h (k + 1) (Nat.succ_le_succ (Nat.zero_le k)) (Nat.le_refl _)
    calc fyLoop r1 (k + 1) a
        = fyLoop r1 k (swapIdx a (k + 1) (r1 (k + 1)).val) := rfl
      _ = fyLoop r2 k (swapIdx a (k + 1) (r1 (k + 1)).val) :=
          ih _ (fun i hi hik => h i hi (Nat.le_succ_of_le hik))
      _ = fyLoop r2 (k + 1) a := by rw [h1]; rfl

/-- Replacing position `j ≤ |ys|` by `e` and appending the displaced
element is a permutation of `ys ++ [e]`. -/
theorem set_append_getD_perm {α : Type} (ys : List α) (e : α) (j : Nat)
    (hj : j ≤ ys.length) :
    (ys.set j e ++ [(ys ++ [e]).getD j e]).Perm (ys ++ [e]) := by
  rcases Nat.lt_or_ge j ys.length with hlt | hge
  · have hgd : (ys ++ [e]).getD j e = ys[j] := by
      rw [List.getD_eq_getElem?_getD, List.getElem?_append_left hlt,
        List.getElem?_eq_getElem hlt]
      rfl
    have key : ∀ (t d : List α) (x : α),
        ((t ++ e :: d) ++ [x]).Perm ((t ++ x :: d) ++ [e]) := by
      intro t d x
      calc (t ++ e :: d) ++ [x]
          ~ x :: (t ++ e :: d) := List.perm_append_singleton _ _
        _ ~ x :: e :: (t ++ d) := List.Perm.cons _ List.perm_middle
        _ ~ e :: x :: (t ++ d) := List.Perm.swap _ _ _
        _ ~ e :: (t ++ x :: d) := List.Perm.cons _ List.perm_middle.symm
        _ ~ (t ++ x :: d) ++ [e] := (List.perm_append_singleton _ _).symm
    have hys : ys.take j ++ ys[j] :: ys.drop (j + 1) = ys := by
      rw [List.getElem_cons_drop ys j hlt, List.take_append_drop]
    rw [hgd, List.set_eq_take_cons_drop e hlt]
    have hk := key (ys.take j) (ys.drop (j + 1)) ys[j]
    rw [hys] at hk
    exact hk
  · have hj' : j = ys.length := Nat.le_antisymm hj hge
    subst hj'
    have hgd : (ys ++ [e]).getD ys.length e = e := by
      rw [List.getD_eq_getElem?_getD, List.getElem?_concat_length]
      rfl
    rw [hgd, List.set_eq_of_length_le (Nat.le_refl ys.length)]

/-- The shuffle permutes its input, whatever the random choices. -/
theorem shuffleArray_perm {α : Type} (rand : (i : Nat) → Fin (i + 1))
    (arr : List α) : (shuffleArray rand arr).Perm arr := by
  have hmain : ∀ (n : Nat) (a : List α), a.length = n →
      ∀ r : (i : Nat) → Fin (i + 1), (shuffleArray r a).Perm a := by
    intro n
    induction n using Nat.strong_induction_on with
    | _ n ih =>
      intro a hlen r
      cases n with
      | zero =>
        rw [List.length_eq_zero] at hlen
        subst hlen
        exact List.Perm.refl _
      | succ m =>
        have ha : a ≠ [] := by
          intro h0
          rw [h0] at hlen
          simp at hlen
        have hsplit : a.dropLast ++ [a.getLast ha] = a :=
          List.dropLast_append_getLast ha
        have hyslen : a.dropLast.length = m := by
          rw [List.length_dropLast, hlen]
          omega
        rw [← hsplit, shuffleArray_peel r a.dropLast (a.getLast ha)]
        have hj : (r a.dropLast.length).val ≤ a.dropLast.length :=
          Nat.lt_succ_iff.mp (r a.dropLast.length).isLt
        have hperm1 :
            (shuffleArray r
                (a.dropLast.set (r a.dropLast.length).val (a.getLast ha))).Perm
              (a.dropLast.set (r a.dropLast.length).val (a.getLast ha)) := by
          apply ih m (Nat.lt_succ_self m)
          rw [List.length_set]
          exact hyslen
        exact (hperm1.append (List.Perm.refl _)).trans
          (set_append_getD_perm a.dropLast (a.getLast ha) _ hj)
  exact hmain arr.length arr rfl rand

/-- Length of a shuffle. -/
theorem length_shuffleArray {α : Type} (rand : (i : Nat) → Fin (i + 1))
    (arr : List α) : (shuffleArray rand arr).length = arr.length :=
  length_fyLoop rand (arr.length - 1) arr

/-- Wrapper of `fyLoop_congr` at the indices a shuffle consumes. -/
theorem shuffleArray_congr {α : Type} (r1 r2 : (i : Nat) → Fin (i + 1))
    (a : List α) (h : ∀ i, 1 ≤ i → i ≤ a.length - 1 → r1 i = r2 i) :
    shuffleArray r1 a = shuffleArray r2 a :=
  fyLoop_congr r1 r2 (a.length - 1) a h

/-- Evaluating a choice vector's oracle inside its range. -/
theorem toRand_lt {n : Nat} (c : FYChoices n) (i : Nat) (h : i < n) :
    toRand c i = c ⟨i, h⟩ := by
  simp [toRand, h]

/-- Restriction of a choice vector to the first `n` indices. -/
def fyRestrict {n : Nat} (c : FYChoices (n + 1)) : FYChoices n :=
  fun i => c ⟨i.val, Nat.lt_succ_of_lt i.isLt⟩

/-- Extension of a choice vector by a choice for the last index. -/
def fyExtend {n : Nat} (c : FYChoices n) (j : Fin (n + 1)) : FYChoices (n + 1) :=
  fun i =>
    if h : i.val = n then Fin.cast (by omega) j
    else c ⟨i.val, by omega⟩

/-- Restricting an extension recovers the original vector. -/
theorem fyRestrict_extend {n : Nat} (c : FYChoices n) (j : Fin (n + 1)) :
    fyRestrict (fyExtend c j) = c := by
  funext i
  have hi : i.val ≠ n := Nat.ne_of_lt i.isLt
  simp [fyRestrict, fyExtend, hi]

/-- The restricted oracle agrees with the original below `n`. -/
theorem toRand_restrict_agree {n : Nat} (c : FYChoices (n + 1)) (i : Nat)
    (h : i < n) : toRand (fyRestrict c) i = toRand c i := by
  rw [toRand_lt (fyRestrict c) i h, toRand_lt c i (Nat.lt_succ_of_lt h)]
  rfl

/-- Fisher-Yates is a bijection between random-index choices and
permutations: for a duplicate-free list `a` of length `n`, every
permutation `p` of `a` is produced by exactly one choice vector.
Under the uniform distribution on choice vectors (which is what an
unbiased `Math.random` yields), every permutation is therefore equally
likely. -/
theorem fy_uniform {α : Type} (n : Nat) :
    ∀ (a p : List α), a.length = n → a.Nodup → p.Perm a →
      ∃! c : FYChoices n, shuffleArray (toRand c) a = p := by
  induction n using Nat.strong_induction_on with
  | _ n ih =>
    intro a p hlen hnd hp
    cases n with
    | zero =>
      rw [List.length_eq_zero] at hlen
      subst hlen
      have hp0 : p = [] := hp.eq_nil
      subst hp0
      refine ⟨fun i => Fin.elim0 i, rfl, ?_⟩
      intro c _
      funext i
      exact Fin.elim0 i
    | succ m =>
      have ha : a ≠ [] := by
        intro h0
        rw [h0] at hlen
        simp at hlen
      obtain ⟨ys, e, rfl⟩ : ∃ ys eelem, a = ys ++ [eelem] :=
        ⟨a.dropLast, a.getLast ha, (List.dropLast_append_getLast ha).symm⟩
      have hpne : p ≠ [] := by
        intro h0
        rw [h0] at hp
        have h1 := hp.symm.eq_nil
        simp at h1
      obtain ⟨q, z, rfl⟩ : ∃ qq zz, p = qq ++ [zz] :=
        ⟨p.dropLast, p.getLast hpne, (List.dropLast_append_getLast hpne).symm⟩
      have hm : m = ys.length := by
        simp only [List.length_append, List.length_singleton] at hlen
        omega
      subst hm
      have hz_mem : z ∈ ys ++ [e] := hp.subset (by simp)
      obtain ⟨j, hj_lt, haj⟩ := List.getElem_of_mem hz_mem
      have hj_le : j ≤ ys.length := by
        simp only [List.length_append, List.length_singleton] at hj_lt
        omega
      have hqlen : q.length = ys.length := by
        have h1 := hp.length_eq
        simp only [List.length_append, List.length_singleton] at h1
        omega
      have hgd : ∀ (k : Nat) (hk : k < (ys ++ [e]).length),
          (ys ++ [e]).getD k e = (ys ++ [e])[k] := by
        intro k hk
        rw [List.getD_eq_getElem?_getD, List.getElem?_eq_getElem hk]
        rfl
      have hpeel : ∀ c : FYChoices (ys.length + 1),
          shuffleArray (toRand c) (ys ++ [e])
            = shuffleArray (toRand c)
                (ys.set (c ⟨ys.length, Nat.lt_succ_self _⟩).val e)
                ++ [(ys ++ [e]).getD (c ⟨ys.length, Nat.lt_succ_self _⟩).val e] := by
        intro c
        have h := shuffleArray_peel (toRand c) ys e
        rw [toRand_lt c ys.length (Nat.lt_succ_self _)] at h
        exact h
      have hchar : ∀ c : FYChoices (ys.length + 1),
          shuffleArray (toRand c) (ys ++ [e]) = q ++ [z]
            ↔ ((c ⟨ys.length, Nat.lt_succ_self _⟩).val = j
                ∧ shuffleArray (toRand (fyRestrict c)) (ys.set j e) = q) := by
        intro c
        have hclt : (c ⟨ys.length, Nat.lt_succ_self _⟩).val < (ys ++ [e]).length := by
          have := (c ⟨ys.length, Nat.lt_succ_self _⟩).isLt
          simp only [List.length_append, List.length_singleton]
          omega
        have hcong : shuffleArray (toRand (fyRestrict c)) (ys.set j e)
            = shuffleArray (toRand c) (ys.set j e) := by
          apply shuffleArray_congr
          intro i hi1 hi2
          apply toRand_restrict_agree
          rw [List.length_set] at hi2
          omega
        constructor
        · intro hc
          rw [hpeel c] at hc
          have hlenf : (shuffleArray (toRand c)
              (ys.set (c ⟨ys.length, Nat.lt_succ_self _⟩).val e)).length
                = q.length := by
            rw [length_shuffleArray, List.length_set, hqlen]
          obtain ⟨hfront, htail⟩ := List.append_inj hc hlenf
          have htail' : (ys ++ [e]).getD
              (c ⟨ys.length, Nat.lt_succ_self _⟩).val e = z := by
            simpa using htail
          have hjv : (c ⟨ys.length, Nat.lt_succ_self _⟩).val = j := by
            have h1 : (ys ++ [e])[(c ⟨ys.length, Nat.lt_succ_self _⟩).val] = z := by
              rw [← hgd _ hclt]
              exact htail'
            have h2 : (ys ++ [e])[(c ⟨ys.length, Nat.lt_succ_self _⟩).val]
                = (ys ++ [e])[j] := by rw [h1, haj]
            exact (List.Nodup.getElem_inj_iff hnd).mp h2
          refine ⟨hjv, ?_⟩
          rw [hjv] at hfront
          rw [hcong]
          exact hfront
        · rintro ⟨hjv, hfront⟩
          rw [hpeel c, hjv]
          rw [hcong] at hfront
          rw [hfront]
          have hz : (ys ++ [e]).getD j e = z := by
            rw [hgd j hj_lt, haj]
          rw [hz]
      have hzs_perm : (ys.set j e ++ [z]).Perm (ys ++ [e]) := by
        have h := set_append_getD_perm ys e j hj_le
        rw [hgd j hj_lt, haj] at h
        exact h
      have hzs_nd : (ys.set j e).Nodup :=
        ((hzs_perm.nodup_iff).mpr hnd).of_append_left
      have hq_perm : q.Perm (ys.set j e) := by
        have h1 : (q ++ [z]).Perm (ys.set j e ++ [z]) := hp.trans hzs_perm.symm
        have h2 : (z :: q).Perm (z :: ys.set j e) :=
          (List.perm_append_singleton z q).symm.trans
            (h1.trans (List.perm_append_singleton z _))
        exact h2.cons_inv
      obtain ⟨c', hc', hc'u⟩ :=
        ih ys.length (Nat.lt_succ_self _) (ys.set j e) q
          (by rw [List.length_set]) hzs_nd hq_perm
      have hjfin : j < ys.length + 1 := by omega
      refine ⟨fyExtend c' ⟨j, hjfin⟩, (hchar _).mpr ⟨?_, ?_⟩, ?_⟩
      · simp [fyExtend]
      · rw [fyRestrict_extend]
        exact hc'
      · intro c hc
        obtain ⟨hjv, hfront⟩ := (hchar c).mp hc
        have hre : fyRestrict c = c' := hc'u (fyRestrict c) hfront
        funext i
        by_cases hi : i.val = ys.length
        · have h1 : (c i).val = j := by
            have hieq : i = ⟨ys.length, Nat.lt_succ_self _⟩ := Fin.ext hi
            rw [hieq]
            exact hjv
          have h2 : ((fyExtend c' ⟨j, hjfin⟩) i).val = j := by
            simp [fyExtend, hi]
          exact Fin.ext (by rw [h1, h2])
        · have hi' : i.val < ys.length := by
            have := i.isLt
            omega
          have h1 : c i = fyRestrict c ⟨i.val, hi'⟩ := by
            unfold fyRestrict
            congr 1
          have h2 : (fyExtend c' ⟨j, hjfin⟩) i = c' ⟨i.val, hi'⟩ := by
            simp [fyExtend, hi]
          rw [h1, hre, h2]

/-- The space of random choices for a length-`n` shuffle has exactly
`n!` elements, one per permutation. -/
theorem card_fyChoices (n : Nat) :
    Fintype.card (FYChoices n) = Nat.factorial n := by
  have key : ∀ m : Nat, (∏ i : Fin m, (i.val + 1)) = Nat.factorial m := by
    intro m
    induction m with
    | zero => simp [Nat.factorial]
    | succ k ihk =>
      rw [Fin.prod_univ_castSucc]
      simp only [Fin.coe_castSucc, Fin.val_last]
      rw [ihk, Nat.factorial_succ, Nat.mul_comm]
  calc Fintype.card (FYChoices n)
      = Fintype.card ((i : Fin n) → Fin (i.val + 1)) :=
        Fintype.card_congr (Equiv.refl _)
    _ = ∏ i : Fin n, Fintype.card (Fin (i.val + 1)) := Fintype.card_pi
    _ = ∏ i : Fin n, (i.val + 1) := by simp
    _ = Nat.factorial n := key n

/-! ## Claim theorems -/

/-- Claim C1: every Record output by the Normalizer has non-empty
Question and Answer; rows whose mapped Question or Answer is empty are
absent; the output is the order-preserving image of the retained
rows. -/
theorem normalizeRecords_c1_spec (rows : List Row) :
    (∀ r ∈ normalizeRecords rows, r.Question ≠ "" ∧ r.Answer ≠ "") ∧
    normalizeRecords rows
      = (rows.filter fun row => keepRecord (normalizeRow row)).map normalizeRow ∧
    (normalizeRecords rows).Sublist (rows.map normalizeRow) := by
  refine ⟨?_, ?_, ?_⟩
  · intro r hr
    rw [normalizeRecords, List.mem_filter] at hr
    have h2 := hr.2
    simp only [keepRecord, Bool.and_eq_true, Bool.not_eq_true',
      beq_eq_false_iff_ne, ne_eq] at h2
    exact h2
  · rw [normalizeRecords, List.filter_map]
    rfl
  · rw [normalizeRecords]
    exact List.filter_sublist _

/-- Claim C1 witness: the theorem applied to one concrete retained
row. -/
theorem normalizeRecords_c1_witness :
    (⟨"", "", "q1", "a1"⟩ : Record).Question ≠ ""
      ∧ (⟨"", "", "q1", "a1"⟩ : Record).Answer ≠ "" :=
  (normalizeRecords_c1_spec [[("question", some "q1"), ("answer", some "a1")]]).1
    ⟨"", "", "q1", "a1"⟩ (by decide)

/-- Claim C2: the key-mapping function trims and lowercases, then
classifies in the stated precedence order (with unmapped keys
discarded); unmatched fields default to the empty string; null values
coerce to the empty string; and on a shared canonical field the later
key in iteration order wins. -/
theorem mapKey_c2_spec :
    (∀ k : String, mapKey k = (claimClassify k).elim k fieldName)
    ∧ normalizeRow [] = ⟨"", "", "", ""⟩
    ∧ coerceVal none = ""
    ∧ (∀ s, coerceVal (some s) = s)
    ∧ (∀ (r : Row) (k : String) (v : Option String), claimClassify k = none →
        normalizeRow (r ++ [(k, v)]) = normalizeRow r)
    ∧ (∀ (r : Row) (k : String) (v : Option String) (f : CanonField),
        claimClassify k = some f →
        getField f (normalizeRow (r ++ [(k, v)])) = coerceVal v)
    ∧ (∀ (r : Row) (k : String) (v : Option String) (f fr : CanonField),
        claimClassify k = some f → fr ≠ f →
        getField fr (normalizeRow (r ++ [(k, v)])) = getField fr (normalizeRow r))
    ∧ (∀ (row : Row) (f : CanonField),
        (∀ kv ∈ row, claimClassify kv.1 ≠ some f) →
        getField f (normalizeRow row) = "") := by
  refine ⟨mapKey_eq_classify, rfl, rfl, fun s => rfl, ?_, ?_, ?_, ?_⟩
  · intro r k v h
    rw [normalizeRow_append, setField_unmapped _ _ _ h]
  · intro r k v f h
    rw [normalizeRow_append, mapKey_eq_classify, h]
    exact getField_setField_same f (normalizeRow r) v
  · intro r k v f fr h hne
    rw [normalizeRow_append, mapKey_eq_classify, h]
    exact getField_setField_ne f fr hne (normalizeRow r) v
  · intro row f h
    rw [normalizeRow]
    rw [getField_foldl_unmapped f row emptyRecord h]
    exact getField_emptyRecord f

/-- Claim C2 witness: last-write-wins on the Question field at a
concrete row, with the hypotheses discharged by computation. -/
theorem mapKey_c2_witness :
    getField CanonField.question
        (normalizeRow ([("Question", some "old")] ++ [("the question", some "new")]))
      = "new" :=
  mapKey_c2_spec.2.2.2.2.2.1 [("Question", some "old")] "the question"
    (some "new") CanonField.question (by decide)

/-- Claim C3 counterexample: on the row
`{"Co.": "Acme", "Tech Question": "Q1", "ans": "A1"}` the Normalizer
outputs the empty list, not the claimed record: "co." does not contain
"company" and "ans" does not contain "answer", so the mapped Answer is
empty and the row is dropped. -/
theorem normalizeRecords_c3_counterexample :
    normalizeRecords
        [[("Co.", some "Acme"), ("Tech Question", some "Q1"), ("ans", some "A1")]]
      = []
    ∧ normalizeRecords
        [[("Co.", some "Acme"), ("Tech Question", some "Q1"), ("ans", some "A1")]]
      ≠ [⟨"Acme", "", "Q1", "A1"⟩] := by
  decide

/-- Claim C3 as amended: "Tech Question" maps to Question, but "Co."
and "ans" are unmapped, so the row's record is
`{Company: "", Type: "", Question: "Q1", Answer: ""}` and the row is
dropped from the output for its empty Answer. -/
theorem normalizeRecords_c3_amended :
    normalizeRow [("Co.", some "Acme"), ("Tech Question", some "Q1"), ("ans", some "A1")]
      = ⟨"", "", "Q1", ""⟩
    ∧ normalizeRecords
        [[("Co.", some "Acme"), ("Tech Question", some "Q1"), ("ans", some "A1")]]
      = []
    ∧ mapKey "Tech Question" = "Question"
    ∧ claimClassify "Co." = none
    ∧ claimClassify "ans" = none := by
  decide

/-- Claim C4: `splitCompanies` on the given example; duplicates are
not removed; every returned tag is non-empty (empty pieces are
discarded). -/
theorem splitCompanies_c4_spec :
    splitCompanies "Acme, Globex;  Initech\nUmbrella"
      = ["Acme", "Globex", "Initech", "Umbrella"]
    ∧ splitCompanies "Acme, Acme" = ["Acme", "Acme"]
    ∧ ∀ v : String, ∀ s ∈ splitCompanies v, s ≠ "" := by
  refine ⟨by decide, by decide, ?_⟩
  intro v s hs
  simp only [splitCompanies, List.mem_map] at hs
  obtain ⟨p, hp, hmk⟩ := hs
  rw [List.mem_filter] at hp
  have hpne : p ≠ [] := by
    intro hp0
    rw [hp0] at hp
    simp at hp
  intro h
  apply hpne
  rw [← hmk] at h
  exact congrArg String.data h

/-- Claim C4 witness: the non-emptiness part applied at a concrete
string. -/
theorem splitCompanies_c4_witness : ("Acme" : String) ≠ "" :=
  splitCompanies_c4_spec.2.2 "Acme" "Acme" (by decide)

/-- Claim C5: the filter stage keeps a record exactly when the
company filter is "all" or one of the record's split company tags,
and the type filter is "all" or the record's normalized type. -/
theorem filterStage_c5_spec (allData : List Record) (company typ : String)
    (d : Record) :
    d ∈ filterStage company typ allData
      ↔ d ∈ allData ∧ claimKeeps company typ d := by
  rw [filterStage, List.mem_filter]
  exact and_congr_right fun _ => recordPasses_iff company typ d

/-- Code-point comparison of character lists: the concrete model used
for `localeCompare(...) <= 0` in the default locale over ASCII data. -/
def charListLe : List Char → List Char → Bool
  | [], _ => true
  | _ :: _, [] => false
  | a :: as, b :: bs =>
    if a.toNat < b.toNat then true
    else if b.toNat < a.toNat then false
    else charListLe as bs

/-- Code-point comparison of strings. -/
def asciiLe (a b : String) : Bool :=
  charListLe a.data b.data

/-- Code-point comparison is total. -/
theorem charListLe_total : ∀ xs ys : List Char,
    charListLe xs ys = true ∨ charListLe ys xs = true := by
  intro xs
  induction xs with
  | nil => intro ys; left; rfl
  | cons x xs ih =>
    intro ys
    cases ys with
    | nil => right; rfl
    | cons y ys =>
      by_cases h1 : x.toNat < y.toNat
      · left; simp [charListLe, h1]
      · by_cases h2 : y.toNat < x.toNat
        · right; simp [charListLe, h2]
        · rcases ih ys with h | h
          · left; simp [charListLe, h1, h2, h]
          · right; simp [charListLe, h1, h2, h]

/-- Code-point comparison is transitive. -/
theorem charListLe_trans : ∀ xs ys zs : List Char,
    charListLe xs ys = true → charListLe ys zs = true →
    charListLe xs zs = true := by
  intro xs
  induction xs with
  | nil => intro ys zs _ _; rfl
  | cons x xs ih =>
    intro ys zs h1 h2
    cases ys with
    | nil => simp [charListLe] at h1
    | cons y ys =>
      cases zs with
      | nil => simp [charListLe] at h2
      | cons z zs =>
        simp only [charListLe] at h1 h2 ⊢
        by_cases hxy : x.toNat < y.toNat
        · by_cases hyz : y.toNat < z.toNat
          · have hxz : x.toNat < z.toNat := by omega
            simp [hxz]
          · by_cases hzy : z.toNat < y.toNat
            · rw [if_neg hyz, if_pos hzy] at h2
              simp at h2
            · have hxz : x.toNat < z.toNat := by omega
              simp [hxz]
        · by_cases hyx : y.toNat < x.toNat
          · rw [if_neg hxy, if_pos hyx] at h1
            simp at h1
          · rw [if_neg hxy, if_neg hyx] at h1
            by_cases hyz : y.toNat < z.toNat
            · have hxz : x.toNat < z.toNat := by omega
              simp [hxz]
            · by_cases hzy : z.toNat < y.toNat
              · rw [if_neg hyz, if_pos hzy] at h2
                simp at h2
              · rw [if_neg hyz, if_neg hzy] at h2
                have hxz : ¬x.toNat < z.toNat := by omega
                have hzx : ¬z.toNat < x.toNat := by omega
                rw [if_neg hxz, if_neg hzx]
                exact ih ys zs h1 h2

/-- Code-point comparison of strings is total. -/
theorem asciiLe_total (a b : String) :
    asciiLe a b = true ∨ asciiLe b a = true :=
  charListLe_total a.data b.data

/-- Code-point comparison of strings is transitive. -/
theorem asciiLe_trans (a b c : String) (h1 : asciiLe a b = true)
    (h2 : asciiLe b c = true) : asciiLe a c = true :=
  charListLe_trans a.data b.data c.data h1 h2

/-- Claim C5 witness: the membership characterization applied at a
concrete record and filters. -/
theorem filterStage_c5_witness :
    (⟨"Acme", "", "q", "a"⟩ : Record)
      ∈ filterStage "Acme" "all" [⟨"Acme", "", "q", "a"⟩] :=
  (filterStage_c5_spec [⟨"Acme", "", "q", "a"⟩] "Acme" "all"
    ⟨"Acme", "", "q", "a"⟩).mpr ⟨by decide, by decide⟩

/-- The sort stage on the `"company"` key unfolds to a stable sort on
the raw Company field. -/
theorem sortStage_company_eq (le : String → String → Bool) (l : List Record) :
    sortStage le "company" l
      = l.insertionSort (fun a b => le a.Company b.Company = true) := rfl

/-- The sort stage on the `"type"` key unfolds to a stable sort on the
raw Type field. -/
theorem sortStage_type_eq (le : String → String → Bool) (l : List Record) :
    sortStage le "type" l
      = l.insertionSort (fun a b => le a.Typ b.Typ = true) := rfl

/-- The sort stage on the `"question"` key unfolds to a stable sort on
the raw Question field. -/
theorem sortStage_question_eq (le : String → String → Bool) (l : List Record) :
    sortStage le "question" l
      = l.insertionSort (fun a b => le a.Question b.Question = true) := rfl

/-- Claim C6: the sort stage returns a new sequence with the same
elements (a permutation of its input); for a transitive and total
comparison it is sorted ascending on the chosen field's raw value; it
is stable (a pair already in comparator order keeps its relative
order); and the concrete three-record stability example holds. -/
theorem sortStage_c6_spec :
    (∀ (le : String → String → Bool) (sortBy : String) (l : List Record),
        (sortStage le sortBy l).Perm l)
    ∧ (∀ le : String → String → Bool,
        (∀ a b c, le a b = true → le b c = true → le a c = true) →
        (∀ a b, le a b = true ∨ le b a = true) →
        ∀ l : List Record,
          (sortStage le "company" l).Pairwise
              (fun a b => le a.Company b.Company = true)
          ∧ (sortStage le "type" l).Pairwise
              (fun a b => le a.Typ b.Typ = true)
          ∧ (sortStage le "question" l).Pairwise
              (fun a b => le a.Question b.Question = true))
    ∧ (∀ (le : String → String → Bool) (a b : Record) (l : List Record),
        le a.Question b.Question = true → [a, b].Sublist l →
        [a, b].Sublist (sortStage le "question" l))
    ∧ sortStage asciiLe "question"
          [⟨"", "", "b", "B1"⟩, ⟨"", "", "a", "A1"⟩, ⟨"", "", "a", "A2"⟩]
        = [⟨"", "", "a", "A1"⟩, ⟨"", "", "a", "A2"⟩, ⟨"", "", "b", "B1"⟩] := by
  refine ⟨?_, ?_, ?_, by decide⟩
  · intro le sortBy l
    unfold sortStage
    repeat' split
    any_goals exact List.Perm.refl l
    all_goals exact List.perm_insertionSort _ l
  · intro le htrans htotal l
    haveI : IsTrans Record (fun a b => le a.Company b.Company = true) :=
      ⟨fun a b c hab hbc => htrans _ _ _ hab hbc⟩
    haveI : IsTotal Record (fun a b => le a.Company b.Company = true) :=
      ⟨fun a b => htotal _ _⟩
    haveI : IsTrans Record (fun a b => le a.Typ b.Typ = true) :=
      ⟨fun a b c hab hbc => htrans _ _ _ hab hbc⟩
    haveI : IsTotal Record (fun a b => le a.Typ b.Typ = true) :=
      ⟨fun a b => htotal _ _⟩
    haveI : IsTrans Record (fun a b => le a.Question b.Question = true) :=
      ⟨fun a b c hab hbc => htrans _ _ _ hab hbc⟩
    haveI : IsTotal Record (fun a b => le a.Question b.Question = true) :=
      ⟨fun a b => htotal _ _⟩
    refine ⟨?_, ?_, ?_⟩
    · rw [sortStage_company_eq]
      exact List.sorted_insertionSort _ l
    · rw [sortStage_type_eq]
      exact List.sorted_insertionSort _ l
    · rw [sortStage_question_eq]
      exact List.sorted_insertionSort _ l
  · intro le a b l hab hsub
    rw [sortStage_question_eq]
    exact List.pair_sublist_insertionSort hab hsub

/-- Claim C6 witness: sortedness and stability instantiated with the
code-point order on ASCII strings at concrete lists. -/
theorem sortStage_c6_witness :
    (sortStage asciiLe "question"
        [⟨"", "", "b", "B1"⟩, ⟨"", "", "a", "A1"⟩]).Pairwise
      (fun x y : Record => asciiLe x.Question y.Question = true)
    ∧ [(⟨"", "", "a", "A1"⟩ : Record), ⟨"", "", "a", "A2"⟩].Sublist
        (sortStage asciiLe "question"
          [⟨"", "", "b", "B1"⟩, ⟨"", "", "a", "A1"⟩, ⟨"", "", "a", "A2"⟩]) := by
  constructor
  · exact (sortStage_c6_spec.2.1 asciiLe
      (fun a b c hab hbc => asciiLe_trans a b c hab hbc)
      (fun a b => asciiLe_total a b)
      [⟨"", "", "b", "B1"⟩, ⟨"", "", "a", "A1"⟩]).2.2
  · exact sortStage_c6_spec.2.2.1 asciiLe _ _ _
      (by decide) (by decide)

/-- Claim C7: the shuffle implements Fisher-Yates over the abstracted
random source: it is a no-op on lists of length at most one, it always
produces a permutation of its input, each permutation of a
duplicate-free list is produced by exactly one vector of random index
choices, and there are exactly `n!` such vectors — so an unbiased
random source makes every permutation equally likely. -/
theorem shuffleArray_c7_spec :
    (∀ (α : Type) (rand : (i : Nat) → Fin (i + 1)) (arr : List α),
        arr.length ≤ 1 → shuffleArray rand arr = arr)
    ∧ (∀ (α : Type) (rand : (i : Nat) → Fin (i + 1)) (arr : List α),
        (shuffleArray rand arr).Perm arr)
    ∧ (∀ (α : Type) (a p : List α), a.Nodup → p.Perm a →
        ∃! c : FYChoices a.length, shuffleArray (toRand c) a = p)
    ∧ (∀ n : Nat, Fintype.card (FYChoices n) = Nat.factorial n) := by
  refine ⟨?_, ?_, ?_, card_fyChoices⟩
  · intro α rand arr h
    cases arr with
    | nil => rfl
    | cons x t =>
      cases t with
      | nil => rfl
      | cons y t2 =>
        exfalso
        simp only [List.length_cons] at h
        omega
  · intro α rand arr
    exact shuffleArray_perm rand arr
  · intro α a p hnd hp
    exact fy_uniform a.length a p rfl hnd hp

/-- Claim C7 witness: the no-op, permutation and unique-choice parts
applied at concrete lists. -/
theorem shuffleArray_c7_witness :
    shuffleArray (fun i => ⟨0, Nat.succ_pos i⟩) [true] = [true]
    ∧ (shuffleArray (fun i => ⟨0, Nat.succ_pos i⟩) [1, 2]).Perm [1, 2]
    ∧ ∃! c : FYChoices ([0, 1, 2] : List Nat).length,
        shuffleArray (toRand c) [0, 1, 2] = [2, 0, 1] := by
  refine ⟨?_, ?_, ?_⟩
  · exact shuffleArray_c7_spec.1 Bool _ [true] (by decide)
  · exact shuffleArray_c7_spec.2.1 Nat _ [1, 2]
  · exact shuffleArray_c7_spec.2.2.1 Nat [0, 1, 2] [2, 0, 1] (by decide) (by decide)

/-- Claim C8: traversal transitions: `next` and `prev` wrap modulo N
and hide the answer, both are no-ops at N = 0, a list-identity change
resets the cursor, and the concrete N = 3 wraparound traces hold. -/
theorem navState_c8_spec :
    (∀ (n : Nat) (s : NavState), n ≠ 0 →
        nextCard n s = ⟨(s.index + 1) % n, false⟩
        ∧ prevCard n s
            = ⟨(((s.index : Int) - 1 + (n : Int)) % (n : Int)).toNat, false⟩
        ∧ prevCard n s = ⟨(s.index + (n - 1)) % n, false⟩)
    ∧ (∀ s, nextCard 0 s = s ∧ prevCard 0 s = s)
    ∧ resetCursor = ⟨0, false⟩
    ∧ prevCard 3 ⟨0, true⟩ = ⟨2, false⟩
    ∧ prevCard 3 ⟨2, true⟩ = ⟨1, false⟩
    ∧ prevCard 3 ⟨1, true⟩ = ⟨0, false⟩
    ∧ nextCard 3 ⟨2, true⟩ = ⟨0, false⟩ := by
  refine ⟨?_, fun s => ⟨rfl, rfl⟩, rfl, by decide, by decide, by decide, by decide⟩
  intro n s hn
  refine ⟨by simp [nextCard, hn], by simp [prevCard, hn], ?_⟩
  have h1 : ((s.index : Int) - 1 + (n : Int)) = ((s.index + (n - 1) : Nat) : Int) := by
    omega
  simp only [prevCard, beq_iff_eq, if_neg hn]
  rw [h1, ← Int.natCast_mod, Int.toNat_natCast]

/-- Claim C8 witness: the modular formulas applied at N = 3. -/
theorem navState_c8_witness :
    nextCard 3 ⟨1, true⟩ = ⟨2, false⟩ ∧ prevCard 3 ⟨0, false⟩ = ⟨2, false⟩ := by
  have h := navState_c8_spec.1 3 ⟨1, true⟩ (by decide)
  have h2 := navState_c8_spec.1 3 ⟨0, false⟩ (by decide)
  exact ⟨by rw [h.1]; rfl, by rw [h2.2.2]; rfl⟩

/-- Claim C9: an upload whose format is unrecognized or whose parse
fails leaves the working set unchanged and surfaces a non-empty error
message. -/
theorem handleUpload_c9_spec (current : List Record) (f : UploadFile)
    (h : f.format = UploadFormat.other ∨ f.rows = none) :
    (handleUpload current f).1 = current ∧ (handleUpload current f).2 ≠ "" := by
  obtain ⟨fmt, rows⟩ := f
  simp only at h
  cases fmt <;> cases rows <;> simp_all [handleUpload]

/-- Claim C9 witness: a concrete unrecognized upload. -/
theorem handleUpload_c9_witness :
    (handleUpload [] ⟨UploadFormat.other, some []⟩).1 = []
      ∧ (handleUpload [] ⟨UploadFormat.other, some []⟩).2 ≠ "" :=
  handleUpload_c9_spec [] ⟨UploadFormat.other, some []⟩ (Or.inl rfl)

/-- Claim C10: with no sort and no shuffle the pipeline output is
exactly the filter stage's output: the order-preserving subsequence of
the working set of records passing the (claim-side) filter. -/
theorem viewPipeline_c10_spec (le : String → String → Bool)
    (rand : (i : Nat) → Fin (i + 1)) (company typ : String)
    (allData : List Record) :
    viewPipeline le rand company typ "none" false allData
        = filterStage company typ allData
    ∧ viewPipeline le rand company typ "none" false allData
        = allData.filter (fun d => decide (claimKeeps company typ d))
    ∧ (viewPipeline le rand company typ "none" false allData).Sublist allData := by
  have h0 : viewPipeline le rand company typ "none" false allData
      = filterStage company typ allData := rfl
  refine ⟨h0, ?_, ?_⟩
  · rw [h0, filterStage]
    apply List.filter_congr
    intro d _
    rw [Bool.eq_iff_iff, decide_eq_true_eq]
    exact recordPasses_iff company typ d
  · rw [h0, filterStage]
    exact List.filter_sublist _

/-- Claim C10 witness: the pipeline equality applied at a concrete
working set. -/
theorem viewPipeline_c10_witness :
    viewPipeline asciiLe (fun i => ⟨0, Nat.succ_pos i⟩) "all" "all" "none" false
        [⟨"A", "", "q", "a"⟩]
      = filterStage "all" "all" [⟨"A", "", "q", "a"⟩] :=
  (viewPipeline_c10_spec asciiLe (fun i => ⟨0, Nat.succ_pos i⟩) "all" "all"
    [⟨"A", "", "q", "a"⟩]).1

end InterviewCards
